import Mathlib

/-!
Verification of the stats merge and streak-computation engine of
devmetrics (`internal/core`: `MergeStats`, `mergeLanguageStats`,
`ComputeStreaks`).

Embedding conventions:
* Go `float64` percentages are modelled as exact rationals (`ℚ`).
* Go `time.Time` is modelled by `GoTime` (a calendar-day index plus a
  time-of-day remainder); `time.Date(t.Year(), t.Month(), t.Day(), 0,0,0,0, UTC)`
  becomes projection to the `day` component.
* Go maps are modelled as association lists with unique keys; a Go map
  value held by a `DevStats` record is a reference (`Option Nat`, `none`
  for a nil map) into an explicit `Heap`, so that the in-place mutation
  performed by `MergeStats` on the primary record's map is observable.
* `time.Now()` becomes an explicit `today : Int` parameter.
* The two unbounded day-by-day loops of `ComputeStreaks` are given the
  fuel `n.length + 1`, which is proved sufficient (`walkBack_fuel_suff`,
  `walkForward_fuel_suff`): with at least that much fuel the loop always
  exits through its break condition, so the result no longer depends on
  the fuel.
-/

set_option linter.unusedVariables false

namespace DevMetrics

/-- A Go `time.Time` value: `day` is the calendar-day index (in the UTC
reference zone) and `rest` the time-of-day remainder that
`time.Date(t.Year(), t.Month(), t.Day(), 0, 0, 0, 0, time.UTC)` drops. -/
structure GoTime where
  day : Int
  rest : Nat
deriving DecidableEq, Repr

/-- The entry list of one Go `map[time.Time]int` value. -/
abbrev ContribMap := List (GoTime × Int)

/-- Go struct `LanguageStat` (package `core`): name (the unique map key),
percentage share, optional display color (empty string means unset). -/
structure LanguageStat where
  name : String
  percentage : ℚ
  color : String
deriving DecidableEq, Repr

/-- Go struct `Identity` (package `core`). -/
structure Identity where
  name : String
  username : String
  avatar : String
  handles : List String
deriving DecidableEq, Repr

/-- Go struct `Totals` (package `core`). -/
structure Totals where
  publicRepos : Int
  privateRepos : Int
  stars : Int
  followers : Int
  following : Int
  contributedRepos : Int
  commits : Int
  joinedAgo : String
  totalLanguages : Int
  currentStreak : Int
  longestStreak : Int
deriving DecidableEq, Repr

/-- Go struct `IssueStats`; `opn` stands for the Go field `Open`
(`open` is a Lean keyword). -/
structure IssueStats where
  opn : Int
  closed : Int
deriving DecidableEq, Repr

/-- Go struct `PRStats`; `opn` stands for the Go field `Open`. -/
structure PRStats where
  opn : Int
  merged : Int
  closed : Int
deriving DecidableEq, Repr

/-- Go struct `Activity`; `contributionsPerDay` is the heap reference of
the Go map value (`none` = nil map). -/
structure Activity where
  contributionsPerDay : Option Nat
  topLanguages : List LanguageStat
  issues : IssueStats
  pullRequests : PRStats
deriving DecidableEq, Repr

/-- Go struct `DevStats` (package `core`). -/
structure DevStats where
  identity : Identity
  totals : Totals
  activity : Activity
deriving DecidableEq, Repr

/-- The Go heap restricted to `map[time.Time]int` values: cell `r` holds
the entries of the map that reference `r` designates. -/
structure Heap where
  maps : List ContribMap
deriving Repr

def Heap.get (h : Heap) (r : Nat) : ContribMap := h.maps.getD r []

def Heap.set (h : Heap) (r : Nat) (m : ContribMap) : Heap := ⟨h.maps.set r m⟩

/-- `make(map[time.Time]int)`: extend the heap with a fresh empty map. -/
def Heap.alloc (h : Heap) : Heap × Nat := (⟨h.maps ++ [[]]⟩, h.maps.length)

/-- Go map read with default: `m[k]` yields the zero value `0` for a
missing key. -/
def assocGet {κ : Type} [DecidableEq κ] : List (κ × Int) → κ → Int
  | [], _ => 0
  | e :: rest, k => if e.1 = k then e.2 else assocGet rest k

/-- Go map write `m[k] = v`: replace the entry for `k`, or append one. -/
def assocSet {κ : Type} [DecidableEq κ] : List (κ × Int) → κ → Int → List (κ × Int)
  | [], k, v => [(k, v)]
  | e :: rest, k, v => if e.1 = k then (k, v) :: rest else e :: assocSet rest k v

/-- The loop `for day, count := range src { dst[day] += count }`. -/
def assocAddAll {κ : Type} [DecidableEq κ] (dst src : List (κ × Int)) : List (κ × Int) :=
  src.foldl (fun d e => assocSet d e.1 (assocGet d e.1 + e.2)) dst

def keysOf {κ : Type} (m : List (κ × Int)) : List κ := m.map Prod.fst

/-- Go map read `m[name]` on the `map[string]LanguageStat` of
`mergeLanguageStats` (entries are keyed by their `name` field). -/
def langFind? : List LanguageStat → String → Option LanguageStat
  | [], _ => none
  | hd :: tl, n => if hd.name = n then some hd else langFind? tl n

/-- Go map write `m[v.Name] = v` on the `map[string]LanguageStat`. -/
def langSet : List LanguageStat → LanguageStat → List LanguageStat
  | [], v => [v]
  | hd :: tl, v => if hd.name = v.name then v :: tl else hd :: langSet tl v

/-- The fallback color constant `"#586069"` of `mergeLanguageStats`. -/
def fallbackColor : String := "#586069"

/-- One iteration of the `for _, ls := range b` loop of
`mergeLanguageStats`. -/
def mergeLangEntry (m : List LanguageStat) (ls : LanguageStat) : List LanguageStat :=
  match langFind? m ls.name with
  | some existing =>
    let totalPct := existing.percentage + ls.percentage
    let color0 := if existing.color = "" then ls.color else existing.color
    let color1 := if color0 = "" then fallbackColor else color0
    langSet m { name := ls.name, percentage := totalPct, color := color1 }
  | none =>
    let color1 := if ls.color = "" then fallbackColor else ls.color
    langSet m { name := ls.name, percentage := ls.percentage, color := color1 }

/-- `sort.Slice(result, func(i, j) { return result[i].Percentage > result[j].Percentage })`,
realised as insertion sort by descending percentage (the claims under
verification are insensitive to the permutation chosen). -/
def insertPctDesc (ls : LanguageStat) : List LanguageStat → List LanguageStat
  | [] => [ls]
  | hd :: tl => if hd.percentage < ls.percentage then ls :: hd :: tl else hd :: insertPctDesc ls tl

def sortPctDesc (l : List LanguageStat) : List LanguageStat := l.foldr insertPctDesc []

/-- The running `total += ls.Percentage` accumulation. -/
def sumPct (l : List LanguageStat) : ℚ := l.foldr (fun ls acc => ls.percentage + acc) 0

/-- The map `m` of `mergeLanguageStats` after its two `range` loops:
`for _, ls := range a { m[ls.Name] = ls }` followed by the merging loop
over `b`. -/
def langMap (a b : List LanguageStat) : List LanguageStat :=
  b.foldl mergeLangEntry (a.foldl (fun m ls => langSet m ls) [])

/-- Go `mergeLanguageStats(a, b []LanguageStat) ([]LanguageStat, int)`. -/
def mergeLanguageStats (a b : List LanguageStat) : List LanguageStat × Int :=
  if a.length = 0 ∧ b.length = 0 then ([], 0)
  else
    let m1 := langMap a b
    let total := sumPct m1
    let result :=
      if 0 < total then
        m1.map (fun ls => { ls with percentage := ls.percentage / total * 100 })
      else m1
    let sorted := sortPctDesc result
    (sorted, (sorted.length : Int))

/-- The normalization loop of `ComputeStreaks`:
`normalized[Date(t.Year(), t.Month(), t.Day())] += c`. -/
def normalizeContribs (contribs : ContribMap) : List (Int × Int) :=
  contribs.foldl (fun acc e => assocSet acc e.1.day (assocGet acc e.1.day + e.2)) []

/-- `sort.Slice(dates, ...Before...)`: insertion sort ascending. -/
def insertAsc (d : Int) : List Int → List Int
  | [] => [d]
  | hd :: tl => if d < hd then d :: hd :: tl else hd :: insertAsc d tl

def sortAsc (l : List Int) : List Int := l.foldr insertAsc []

/-- The backward walk
`for d := todayDate; ; d = d.AddDate(0,0,-1) { if normalized[d] <= 0 break; current++ }`,
with explicit fuel. -/
def walkBack (n : List (Int × Int)) : Nat → Int → Nat
  | 0, _ => 0
  | fuel + 1, d => if 0 < assocGet n d then walkBack n fuel (d - 1) + 1 else 0

/-- The forward walk
`for cur := d; normalized[cur] > 0; cur = cur.AddDate(0,0,1) { seen[cur] = true; length++ }`,
with explicit fuel; returns the length together with the updated `seen` set. -/
def walkForward (n : List (Int × Int)) : Nat → Int → List Int → Nat × List Int
  | 0, _, seen => (0, seen)
  | fuel + 1, cur, seen =>
    if 0 < assocGet n cur then
      ((walkForward n fuel (cur + 1) (cur :: seen)).1 + 1,
       (walkForward n fuel (cur + 1) (cur :: seen)).2)
    else (0, seen)

/-- The `for _, d := range dates` loop computing the longest streak,
threading the `seen` set and the running maximum. -/
def longestLoop (n : List (Int × Int)) : List Int → List Int → Nat → Nat
  | [], _, longest => longest
  | d :: rest, seen, longest =>
    if d ∈ seen then longestLoop n rest seen longest
    else if assocGet n d ≤ 0 then longestLoop n rest seen longest
    else if 0 < assocGet n (d - 1) then longestLoop n rest seen longest
    else
      longestLoop n rest (walkForward n (n.length + 1) d seen).2
        (max longest (walkForward n (n.length + 1) d seen).1)

/-- Go `ComputeStreaks(contribs map[time.Time]int) (int, int)`;
`today` stands for the day of `time.Now().UTC()`; the first component is
the current streak (the backward walk from `today`), the second the
longest streak (the loop over the sorted `dates`). -/
def ComputeStreaks (today : Int) (contribs : ContribMap) : Nat × Nat :=
  if contribs.length = 0 then (0, 0)
  else
    (walkBack (normalizeContribs contribs) ((normalizeContribs contribs).length + 1) today,
     longestLoop (normalizeContribs contribs)
       (sortAsc (keysOf (normalizeContribs contribs))) [] 0)

/-- Go `MergeStats(primary, secondary DevStats) DevStats`, threaded
through the heap of map values; returns the updated heap together with
the merged record. -/
def MergeStats (today : Int) (h : Heap) (primary secondary : DevStats) : Heap × DevStats :=
  let handles := primary.identity.handles ++ secondary.identity.handles
  let hc : Heap × Option Nat :=
    match secondary.activity.contributionsPerDay with
    | none => (h, primary.activity.contributionsPerDay)
    | some sref =>
      let pr : Heap × Nat :=
        match primary.activity.contributionsPerDay with
        | some r => (h, r)
        | none => Heap.alloc h
      let dst := Heap.get pr.1 pr.2
      let src := Heap.get h sref
      (Heap.set pr.1 pr.2 (assocAddAll dst src), some pr.2)
  let ml := mergeLanguageStats primary.activity.topLanguages secondary.activity.topLanguages
  let contribVal : ContribMap :=
    match hc.2 with
    | none => []
    | some r => Heap.get hc.1 r
  let streaks := ComputeStreaks today contribVal
  (hc.1,
   { identity :=
       { name := primary.identity.name
         username := primary.identity.username
         avatar := primary.identity.avatar
         handles := handles }
     totals :=
       { publicRepos := primary.totals.publicRepos + secondary.totals.publicRepos
         privateRepos := primary.totals.privateRepos + secondary.totals.privateRepos
         stars := primary.totals.stars + secondary.totals.stars
         followers := primary.totals.followers + secondary.totals.followers
         following := primary.totals.following + secondary.totals.following
         contributedRepos := primary.totals.contributedRepos + secondary.totals.contributedRepos
         commits := primary.totals.commits + secondary.totals.commits
         joinedAgo := primary.totals.joinedAgo
         totalLanguages := ml.2
         currentStreak := (streaks.1 : Int)
         longestStreak := (streaks.2 : Int) }
     activity :=
       { contributionsPerDay := hc.2
         topLanguages := ml.1
         issues :=
           { opn := primary.activity.issues.opn + secondary.activity.issues.opn
             closed := primary.activity.issues.closed + secondary.activity.issues.closed }
         pullRequests :=
           { opn := primary.activity.pullRequests.opn + secondary.activity.pullRequests.opn
             merged := primary.activity.pullRequests.merged + secondary.activity.pullRequests.merged
             closed := primary.activity.pullRequests.closed + secondary.activity.pullRequests.closed } } })

/-- A `DevStats` value with zero counters, empty strings and lists and a
nil contribution map, used as the base of concrete test inputs. -/
def baseStats : DevStats :=
  { identity := { name := "", username := "", avatar := "", handles := [] }
    totals :=
      { publicRepos := 0, privateRepos := 0, stars := 0, followers := 0, following := 0
        contributedRepos := 0, commits := 0, joinedAgo := "", totalLanguages := 0
        currentStreak := 0, longestStreak := 0 }
    activity :=
      { contributionsPerDay := none
        topLanguages := []
        issues := { opn := 0, closed := 0 }
        pullRequests := { opn := 0, merged := 0, closed := 0 } } }

/-- The observable entry list of a record's contribution map: `[]` for a
nil reference, otherwise the heap cell's contents. -/
def contribEntries (h : Heap) (s : DevStats) : ContribMap :=
  match s.activity.contributionsPerDay with
  | none => []
  | some r => h.get r

/-- The record's contribution-map reference, when present, designates a
cell of the heap. -/
def refValid (h : Heap) (s : DevStats) : Prop :=
  ∀ r, s.activity.contributionsPerDay = some r → r < h.maps.length

/-- A day qualifies for a streak iff its normalized count is strictly
positive (`normalized[d] > 0`). -/
abbrev qualifies (n : List (Int × Int)) (d : Int) : Prop := 0 < assocGet n d

/-- A day starts a maximal run iff it qualifies and its predecessor does
not. -/
abbrev isStart (n : List (Int × Int)) (d : Int) : Prop :=
  qualifies n d ∧ ¬ qualifies n (d - 1)

/-- The length of the forward walk from `d` (seen-set irrelevant to it). -/
def wfLen (n : List (Int × Int)) (d : Int) : Nat :=
  (walkForward n (n.length + 1) d []).1

/-- The number of entries of a normalized map with strictly positive
count. -/
def posCount (n : List (Int × Int)) : Nat :=
  (n.filter (fun e => 0 < e.2)).length

/-! ### Association-list map lemmas -/

theorem assocGet_cons {κ : Type} [DecidableEq κ] (e : κ × Int) (m : List (κ × Int)) (k : κ) :
    assocGet (e :: m) k = if e.1 = k then e.2 else assocGet m k := rfl

theorem keysOf_nil {κ : Type} : keysOf ([] : List (κ × Int)) = [] := rfl

theorem keysOf_cons {κ : Type} (e : κ × Int) (m : List (κ × Int)) :
    keysOf (e :: m) = e.1 :: keysOf m := rfl

theorem assocSet_cons_eq {κ : Type} [DecidableEq κ] (e : κ × Int) (m : List (κ × Int))
    (k : κ) (v : Int) (h : e.1 = k) : assocSet (e :: m) k v = (k, v) :: m := by
  simp [assocSet, h]

theorem assocSet_cons_ne {κ : Type} [DecidableEq κ] (e : κ × Int) (m : List (κ × Int))
    (k : κ) (v : Int) (h : ¬ e.1 = k) : assocSet (e :: m) k v = e :: assocSet m k v := by
  simp [assocSet, h]

theorem assocGet_set_self {κ : Type} [DecidableEq κ] (m : List (κ × Int)) (k : κ) (v : Int) :
    assocGet (assocSet m k v) k = v := by
  induction m with
  | nil => simp [assocSet, assocGet]
  | cons e rest ih =>
    by_cases h : e.1 = k
    · simp [assocSet, h, assocGet]
    · simp [assocSet, h, assocGet_cons, ih]

theorem assocGet_set_ne {κ : Type} [DecidableEq κ] (m : List (κ × Int)) (k k' : κ) (v : Int)
    (h : k' ≠ k) : assocGet (assocSet m k v) k' = assocGet m k' := by
  induction m with
  | nil =>
    show assocGet [(k, v)] k' = assocGet [] k'
    rw [assocGet_cons, if_neg (fun hh => h hh.symm)]
  | cons e rest ih =>
    by_cases he : e.1 = k
    · rw [assocSet_cons_eq e rest k v he, assocGet_cons, assocGet_cons,
        if_neg (fun hh => h hh.symm), if_neg (fun hh => h (he.symm.trans hh).symm)]
    · rw [assocSet_cons_ne e rest k v he, assocGet_cons, assocGet_cons, ih]

theorem mem_keys_set {κ : Type} [DecidableEq κ] (m : List (κ × Int)) (k k' : κ) (v : Int) :
    k' ∈ keysOf (assocSet m k v) ↔ k' ∈ keysOf m ∨ k' = k := by
  induction m with
  | nil =>
    show k' ∈ keysOf [(k, v)] ↔ _
    rw [keysOf_cons, keysOf_nil]
    simp
  | cons e rest ih =>
    by_cases he : e.1 = k
    · rw [assocSet_cons_eq e rest k v he, keysOf_cons, keysOf_cons]
      simp only [List.mem_cons]
      constructor
      · rintro (hh | hh)
        · exact Or.inr hh
        · exact Or.inl (Or.inr hh)
      · rintro ((hh | hh) | hh)
        · exact Or.inl (he ▸ hh)
        · exact Or.inr hh
        · exact Or.inl hh
    · rw [assocSet_cons_ne e rest k v he, keysOf_cons, keysOf_cons]
      simp only [List.mem_cons, ih]
      tauto

theorem keys_nodup_set {κ : Type} [DecidableEq κ] (m : List (κ × Int)) (k : κ) (v : Int)
    (h : (keysOf m).Nodup) : (keysOf (assocSet m k v)).Nodup := by
  induction m with
  | nil =>
    show (keysOf [(k, v)]).Nodup
    rw [keysOf_cons, keysOf_nil]
    simp
  | cons e rest ih =>
    rw [keysOf_cons, List.nodup_cons] at h
    by_cases he : e.1 = k
    · rw [assocSet_cons_eq e rest k v he, keysOf_cons, List.nodup_cons]
      exact ⟨he ▸ h.1, h.2⟩
    · rw [assocSet_cons_ne e rest k v he, keysOf_cons, List.nodup_cons]
      refine ⟨fun hmem => ?_, ih h.2⟩
      rcases (mem_keys_set rest k e.1 v).1 hmem with hm | hm
      · exact h.1 hm
      · exact he hm

theorem assocGet_eq_zero_of_not_mem {κ : Type} [DecidableEq κ] (m : List (κ × Int)) (k : κ)
    (h : k ∉ keysOf m) : assocGet m k = 0 := by
  induction m with
  | nil => rfl
  | cons e rest ih =>
    rw [keysOf_cons, List.mem_cons] at h
    push_neg at h
    rw [assocGet_cons, if_neg (fun hh => h.1 hh.symm)]
    exact ih h.2

theorem mem_keys_of_get_ne_zero {κ : Type} [DecidableEq κ] (m : List (κ × Int)) (k : κ)
    (h : assocGet m k ≠ 0) : k ∈ keysOf m := by
  by_contra hk
  exact h (assocGet_eq_zero_of_not_mem m k hk)

/-- With distinct keys, a strictly positive read pins an entry of the
positive sublist. -/
theorem mem_posKeys_of_get_pos {κ : Type} [DecidableEq κ] (m : List (κ × Int)) (k : κ)
    (hnd : (keysOf m).Nodup) (h : 0 < assocGet m k) :
    k ∈ keysOf (m.filter (fun e => 0 < e.2)) := by
  induction m with
  | nil => exact absurd h (by simp [assocGet])
  | cons e rest ih =>
    rw [keysOf_cons, List.nodup_cons] at hnd
    rw [assocGet_cons] at h
    by_cases he : e.1 = k
    · rw [if_pos he] at h
      have hmem : e ∈ (e :: rest).filter (fun e => 0 < e.2) :=
        List.mem_filter.2 ⟨List.mem_cons_self e rest, by simpa using h⟩
      exact List.mem_map.2 ⟨e, hmem, he⟩
    · rw [if_neg he] at h
      have hk := ih hnd.2 h
      rcases List.mem_map.1 hk with ⟨x, hx, hxk⟩
      exact List.mem_map.2 ⟨x, List.mem_filter.2
        ⟨List.mem_cons_of_mem e (List.mem_filter.1 hx).1, (List.mem_filter.1 hx).2⟩, hxk⟩

theorem posCount_le_length (n : List (Int × Int)) : posCount n ≤ n.length := by
  simpa [posCount] using List.length_filter_le (fun e => decide (0 < e.2)) n

theorem keysOf_length {κ : Type} (m : List (κ × Int)) : (keysOf m).length = m.length := by
  simp [keysOf]

/-! ### `assocAddAll` lemmas -/

theorem assocGet_addAll {κ : Type} [DecidableEq κ] (src : List (κ × Int))
    (hnd : (keysOf src).Nodup) (dst : List (κ × Int)) (k : κ) :
    assocGet (assocAddAll dst src) k = assocGet dst k + assocGet src k := by
  induction src generalizing dst with
  | nil => simp [assocAddAll, assocGet]
  | cons e rest ih =>
    simp [keysOf] at hnd
    have step : assocAddAll dst (e :: rest)
        = assocAddAll (assocSet dst e.1 (assocGet dst e.1 + e.2)) rest := rfl
    rw [step, ih hnd.2]
    by_cases he : e.1 = k
    · subst he
      have hrest : assocGet rest e.1 = 0 :=
        assocGet_eq_zero_of_not_mem rest e.1 (by simpa [keysOf] using hnd.1)
      rw [assocGet_set_self, assocGet_cons, if_pos rfl, hrest]
      ring
    · rw [assocGet_set_ne dst e.1 k _ (fun hh => he hh.symm), assocGet_cons, if_neg he]

theorem mem_keys_addAll {κ : Type} [DecidableEq κ] (src dst : List (κ × Int)) (k : κ) :
    k ∈ keysOf (assocAddAll dst src) ↔ k ∈ keysOf dst ∨ k ∈ keysOf src := by
  induction src generalizing dst with
  | nil => simp [assocAddAll, keysOf]
  | cons e rest ih =>
    have step : assocAddAll dst (e :: rest)
        = assocAddAll (assocSet dst e.1 (assocGet dst e.1 + e.2)) rest := rfl
    rw [step, ih]
    rw [mem_keys_set]
    simp [keysOf]
    tauto

theorem keys_nodup_addAll {κ : Type} [DecidableEq κ] (src dst : List (κ × Int))
    (hnd : (keysOf dst).Nodup) : (keysOf (assocAddAll dst src)).Nodup := by
  induction src generalizing dst with
  | nil => simpa [assocAddAll]
  | cons e rest ih =>
    have step : assocAddAll dst (e :: rest)
        = assocAddAll (assocSet dst e.1 (assocGet dst e.1 + e.2)) rest := rfl
    rw [step]
    exact ih _ (keys_nodup_set dst e.1 _ hnd)

/-! ### `normalizeContribs` lemmas -/

theorem keys_nodup_normalize (contribs : ContribMap) :
    (keysOf (normalizeContribs contribs)).Nodup := by
  have gen : ∀ (l : ContribMap) (acc : List (Int × Int)), (keysOf acc).Nodup →
      (keysOf (l.foldl
        (fun acc e => assocSet acc e.1.day (assocGet acc e.1.day + e.2)) acc)).Nodup := by
    intro l
    induction l with
    | nil => intro acc h; simpa
    | cons e rest ih =>
      intro acc h
      exact ih _ (keys_nodup_set acc e.1.day _ h)
  exact gen contribs [] (by simp [keysOf])

/-! ### `List.getD` / heap lemmas -/

theorem getD_set_self {α : Type} (x d : α) :
    ∀ (l : List α) (i : Nat), i < l.length → (l.set i x).getD i d = x := by
  intro l
  induction l with
  | nil => intro i h; simp at h
  | cons a tl ih =>
    intro i h
    cases i with
    | zero => rfl
    | succ j =>
      rw [List.set_cons_succ, List.getD_cons_succ]
      exact ih j (by simpa using h)

theorem getD_set_ne {α : Type} (x d : α) :
    ∀ (l : List α) (i j : Nat), i ≠ j → (l.set i x).getD j d = l.getD j d := by
  intro l
  induction l with
  | nil => intro i j h; rfl
  | cons a tl ih =>
    intro i j h
    cases i with
    | zero =>
      cases j with
      | zero => exact absurd rfl h
      | succ j' => rw [List.set_cons_zero, List.getD_cons_succ, List.getD_cons_succ]
    | succ i' =>
      cases j with
      | zero => rw [List.set_cons_succ, List.getD_cons_zero, List.getD_cons_zero]
      | succ j' =>
        rw [List.set_cons_succ, List.getD_cons_succ, List.getD_cons_succ]
        exact ih i' j' (fun hh => h (by rw [hh]))

theorem getD_append_ne {α : Type} (d : α) :
    ∀ (l : List α) (x : α) (j : Nat), j ≠ l.length → (l ++ [x]).getD j d = l.getD j d := by
  intro l
  induction l with
  | nil =>
    intro x j h
    cases j with
    | zero => exact absurd rfl h
    | succ j' => rfl
  | cons a tl ih =>
    intro x j h
    cases j with
    | zero => rfl
    | succ j' =>
      rw [List.cons_append, List.getD_cons_succ, List.getD_cons_succ]
      exact ih x j' (fun hh => h (by simp [hh]))

theorem getD_append_self {α : Type} (d : α) :
    ∀ (l : List α) (x : α), (l ++ [x]).getD l.length d = x := by
  intro l
  induction l with
  | nil => intro x; rfl
  | cons a tl ih =>
    intro x
    rw [List.cons_append, List.length_cons, List.getD_cons_succ]
    exact ih x

theorem Heap.get_set_self (h : Heap) (r : Nat) (m : ContribMap) (hr : r < h.maps.length) :
    (h.set r m).get r = m :=
  getD_set_self m [] h.maps r hr

theorem Heap.get_set_ne (h : Heap) (r q : Nat) (m : ContribMap) (hq : q ≠ r) :
    (h.set r m).get q = h.get q :=
  getD_set_ne m [] h.maps r q (fun hh => hq hh.symm)

theorem Heap.get_alloc_old (h : Heap) (q : Nat) (hq : q ≠ h.maps.length) :
    (h.alloc).1.get q = h.get q :=
  getD_append_ne [] h.maps [] q hq

theorem Heap.get_alloc_fresh (h : Heap) : (h.alloc).1.get (h.alloc).2 = [] :=
  getD_append_self [] h.maps []

theorem Heap.alloc_fresh_lt (h : Heap) : (h.alloc).2 < (h.alloc).1.maps.length := by
  simp [Heap.alloc]

/-! ### Sorting permutes, sums are invariant -/

theorem insertAsc_perm (d : Int) (l : List Int) : List.Perm (insertAsc d l) (d :: l) := by
  induction l with
  | nil => exact List.Perm.refl _
  | cons hd tl ih =>
    by_cases h : d < hd
    · rw [insertAsc, if_pos h]
    · rw [insertAsc, if_neg h]
      exact (ih.cons hd).trans (List.Perm.swap d hd tl)

theorem sortAsc_perm (l : List Int) : List.Perm (sortAsc l) l := by
  induction l with
  | nil => exact List.Perm.refl _
  | cons hd tl ih =>
    have : sortAsc (hd :: tl) = insertAsc hd (sortAsc tl) := rfl
    rw [this]
    exact (insertAsc_perm hd (sortAsc tl)).trans (ih.cons hd)

theorem insertPctDesc_perm (ls : LanguageStat) (l : List LanguageStat) :
    List.Perm (insertPctDesc ls l) (ls :: l) := by
  induction l with
  | nil => exact List.Perm.refl _
  | cons hd tl ih =>
    by_cases h : hd.percentage < ls.percentage
    · rw [insertPctDesc, if_pos h]
    · rw [insertPctDesc, if_neg h]
      exact (ih.cons hd).trans (List.Perm.swap ls hd tl)

theorem sortPctDesc_perm (l : List LanguageStat) : List.Perm (sortPctDesc l) l := by
  induction l with
  | nil => exact List.Perm.refl _
  | cons hd tl ih =>
    have : sortPctDesc (hd :: tl) = insertPctDesc hd (sortPctDesc tl) := rfl
    rw [this]
    exact (insertPctDesc_perm hd (sortPctDesc tl)).trans (ih.cons hd)

theorem sumPct_nil : sumPct [] = 0 := rfl

theorem sumPct_cons (ls : LanguageStat) (l : List LanguageStat) :
    sumPct (ls :: l) = ls.percentage + sumPct l := rfl

theorem sumPct_eq_sum_map (l : List LanguageStat) :
    sumPct l = (l.map (fun ls => ls.percentage)).sum := by
  induction l with
  | nil => rfl
  | cons hd tl ih => rw [sumPct_cons, List.map_cons, List.sum_cons, ih]

theorem sumPct_perm {l l' : List LanguageStat} (h : List.Perm l l') : sumPct l = sumPct l' := by
  rw [sumPct_eq_sum_map, sumPct_eq_sum_map]
  exact (h.map (fun ls => ls.percentage)).sum_eq

theorem sumPct_scale (l : List LanguageStat) (T : ℚ) :
    sumPct (l.map (fun ls => { ls with percentage := ls.percentage / T * 100 }))
      = sumPct l / T * 100 := by
  induction l with
  | nil => simp [sumPct]
  | cons hd tl ih =>
    rw [List.map_cons, sumPct_cons, sumPct_cons, ih]
    ring

/-! ### Backward-walk lemmas -/

theorem walkBack_qual (n : List (Int × Int)) :
    ∀ (fuel : Nat) (d : Int) (i : Nat), i < walkBack n fuel d → qualifies n (d - i) := by
  intro fuel
  induction fuel with
  | zero => intro d i h; simp [walkBack] at h
  | succ f ih =>
    intro d i h
    simp only [walkBack] at h
    by_cases hq : 0 < assocGet n d
    · rw [if_pos hq] at h
      cases i with
      | zero => simpa using hq
      | succ j =>
        have hj := ih (d - 1) j (by omega)
        have heq : d - ((j + 1 : Nat) : Int) = d - 1 - (j : Int) := by push_cast; ring
        rw [heq]
        exact hj
    · rw [if_neg hq] at h
      omega

theorem walkBack_break (n : List (Int × Int)) :
    ∀ (fuel : Nat) (d : Int),
      walkBack n fuel d = fuel ∨ ¬ qualifies n (d - (walkBack n fuel d : Nat)) := by
  intro fuel
  induction fuel with
  | zero => intro d; exact Or.inl rfl
  | succ f ih =>
    intro d
    simp only [walkBack]
    by_cases hq : 0 < assocGet n d
    · rw [if_pos hq]
      rcases ih (d - 1) with h | h
      · exact Or.inl (by omega)
      · refine Or.inr ?_
        have heq : d - ((walkBack n f (d - 1) + 1 : Nat) : Int)
            = d - 1 - (walkBack n f (d - 1) : Nat) := by push_cast; ring
        rw [heq]
        exact h
    · rw [if_neg hq]
      refine Or.inr ?_
      simpa using hq

/-- A family of `k` distinct qualifying days injects into the positive
entries of the map, bounding `k`. -/
theorem qualrun_le_posCount (n : List (Int × Int)) (hnd : (keysOf n).Nodup) (g : Nat → Int)
    (k : Nat) (hg : ∀ i j, i < k → j < k → g i = g j → i = j)
    (h : ∀ i, i < k → qualifies n (g i)) : k ≤ posCount n := by
  have hsub : ((List.range k).map g) ⊆ keysOf (n.filter (fun e => 0 < e.2)) := by
    intro x hx
    rcases List.mem_map.1 hx with ⟨i, hi, rfl⟩
    exact mem_posKeys_of_get_pos n _ hnd (h i (List.mem_range.1 hi))
  have hndk : ((List.range k).map g).Nodup := by
    refine List.Nodup.map_on ?_ (List.nodup_range k)
    intro i hi j hj hij
    exact hg i j (List.mem_range.1 hi) (List.mem_range.1 hj) hij
  have hle := (hndk.subperm hsub).length_le
  simpa [posCount, keysOf] using hle

theorem walkBack_le_posCount (n : List (Int × Int)) (hnd : (keysOf n).Nodup)
    (fuel : Nat) (d : Int) : walkBack n fuel d ≤ posCount n := by
  refine qualrun_le_posCount n hnd (fun i => d - i) (walkBack n fuel d) ?_ ?_
  · intro i j _ _ hij
    have hij' : d - (i : Int) = d - (j : Int) := hij
    omega
  · intro i hi
    exact walkBack_qual n fuel d i hi

theorem walkBack_stable (n : List (Int × Int)) :
    ∀ (fuel k : Nat) (d : Int), walkBack n fuel d < fuel →
      walkBack n (fuel + k) d = walkBack n fuel d := by
  intro fuel
  induction fuel with
  | zero => intro k d h; omega
  | succ f ih =>
    intro k d h
    have hfk : f + 1 + k = (f + k) + 1 := by omega
    rw [hfk]
    simp only [walkBack] at h ⊢
    by_cases hq : 0 < assocGet n d
    · simp only [if_pos hq] at h ⊢
      rw [ih k (d - 1) (by omega)]
    · simp only [if_neg hq]

theorem walkBack_fuel_suff (n : List (Int × Int)) (hnd : (keysOf n).Nodup)
    (fuel : Nat) (d : Int) (hf : posCount n < fuel) :
    walkBack n fuel d = walkBack n (posCount n + 1) d := by
  have h1 : walkBack n (posCount n + 1) d < posCount n + 1 :=
    Nat.lt_succ_of_le (walkBack_le_posCount n hnd _ d)
  have hsplit : fuel = (posCount n + 1) + (fuel - (posCount n + 1)) := by omega
  rw [hsplit, walkBack_stable n (posCount n + 1) _ d h1]

/-! ### Forward-walk lemmas -/

theorem walkForward_succ_pos (n : List (Int × Int)) (f : Nat) (c : Int) (s : List Int)
    (hq : 0 < assocGet n c) :
    walkForward n (f + 1) c s
      = ((walkForward n f (c + 1) (c :: s)).1 + 1, (walkForward n f (c + 1) (c :: s)).2) := by
  simp only [walkForward, if_pos hq]

theorem walkForward_succ_neg (n : List (Int × Int)) (f : Nat) (c : Int) (s : List Int)
    (hq : ¬ 0 < assocGet n c) : walkForward n (f + 1) c s = (0, s) := by
  simp only [walkForward, if_neg hq]

theorem walkForward_fst_indep (n : List (Int × Int)) :
    ∀ (fuel : Nat) (c : Int) (s₁ s₂ : List Int),
      (walkForward n fuel c s₁).1 = (walkForward n fuel c s₂).1 := by
  intro fuel
  induction fuel with
  | zero => intro c s₁ s₂; rfl
  | succ f ih =>
    intro c s₁ s₂
    by_cases hq : 0 < assocGet n c
    · rw [walkForward_succ_pos n f c s₁ hq, walkForward_succ_pos n f c s₂ hq]
      show (walkForward n f (c + 1) (c :: s₁)).1 + 1 = (walkForward n f (c + 1) (c :: s₂)).1 + 1
      rw [ih (c + 1) (c :: s₁) (c :: s₂)]
    · rw [walkForward_succ_neg n f c s₁ hq, walkForward_succ_neg n f c s₂ hq]

theorem walkForward_qual (n : List (Int × Int)) :
    ∀ (fuel : Nat) (c : Int) (s : List Int) (i : Nat),
      i < (walkForward n fuel c s).1 → qualifies n (c + i) := by
  intro fuel
  induction fuel with
  | zero => intro c s i h; simp [walkForward] at h
  | succ f ih =>
    intro c s i h
    by_cases hq : 0 < assocGet n c
    · rw [walkForward_succ_pos n f c s hq] at h
      have h' : i < (walkForward n f (c + 1) (c :: s)).1 + 1 := h
      cases i with
      | zero => simpa using hq
      | succ j =>
        have hj := ih (c + 1) (c :: s) j (by omega)
        have heq : c + ((j + 1 : Nat) : Int) = (c + 1) + (j : Int) := by push_cast; ring
        rw [heq]
        exact hj
    · rw [walkForward_succ_neg n f c s hq] at h
      simp at h

theorem walkForward_break (n : List (Int × Int)) :
    ∀ (fuel : Nat) (c : Int) (s : List Int),
      (walkForward n fuel c s).1 = fuel ∨
        ¬ qualifies n (c + ((walkForward n fuel c s).1 : Nat)) := by
  intro fuel
  induction fuel with
  | zero => intro c s; exact Or.inl rfl
  | succ f ih =>
    intro c s
    by_cases hq : 0 < assocGet n c
    · rw [walkForward_succ_pos n f c s hq]
      rcases ih (c + 1) (c :: s) with h | h
      · refine Or.inl ?_
        show _ + 1 = f + 1
        omega
      · refine Or.inr ?_
        show ¬ qualifies n (c + (((walkForward n f (c + 1) (c :: s)).1 + 1 : Nat) : Int))
        have heq : c + (((walkForward n f (c + 1) (c :: s)).1 + 1 : Nat) : Int)
            = (c + 1) + (((walkForward n f (c + 1) (c :: s)).1 : Nat) : Int) := by push_cast; ring
        rw [heq]
        exact h
    · rw [walkForward_succ_neg n f c s hq]
      refine Or.inr ?_
      show ¬ qualifies n (c + ((0 : Nat) : Int))
      simpa using hq

theorem walkForward_ge (n : List (Int × Int)) :
    ∀ (k fuel : Nat) (c : Int) (s : List Int),
      k ≤ fuel → (∀ i : Nat, i < k → qualifies n (c + i)) →
      k ≤ (walkForward n fuel c s).1 := by
  intro k
  induction k with
  | zero => intro fuel c s _ _; exact Nat.zero_le _
  | succ j ih =>
    intro fuel c s hf hq
    cases fuel with
    | zero => omega
    | succ f =>
      have hc : 0 < assocGet n c := by simpa using hq 0 (by omega)
      rw [walkForward_succ_pos n f c s hc]
      show j + 1 ≤ (walkForward n f (c + 1) (c :: s)).1 + 1
      have hgoal : j ≤ (walkForward n f (c + 1) (c :: s)).1 := by
        refine ih f (c + 1) (c :: s) (by omega) ?_
        intro i hi
        have hstep := hq (i + 1) (by omega)
        have heq : c + ((i + 1 : Nat) : Int) = (c + 1) + (i : Int) := by push_cast; ring
        rw [heq] at hstep
        exact hstep
      omega

theorem walkForward_le_posCount (n : List (Int × Int)) (hnd : (keysOf n).Nodup)
    (fuel : Nat) (c : Int) (s : List Int) : (walkForward n fuel c s).1 ≤ posCount n := by
  refine qualrun_le_posCount n hnd (fun i => c + i) ((walkForward n fuel c s).1) ?_ ?_
  · intro i j _ _ hij
    have hij' : c + (i : Int) = c + (j : Int) := hij
    omega
  · intro i hi
    exact walkForward_qual n fuel c s i hi

theorem walkForward_stable (n : List (Int × Int)) :
    ∀ (fuel k : Nat) (c : Int) (s : List Int), (walkForward n fuel c s).1 < fuel →
      (walkForward n (fuel + k) c s).1 = (walkForward n fuel c s).1 := by
  intro fuel
  induction fuel with
  | zero => intro k c s h; omega
  | succ f ih =>
    intro k c s h
    have hfk : f + 1 + k = (f + k) + 1 := by omega
    rw [hfk]
    by_cases hq : 0 < assocGet n c
    · rw [walkForward_succ_pos n (f + k) c s hq, walkForward_succ_pos n f c s hq]
      rw [walkForward_succ_pos n f c s hq] at h
      show (walkForward n (f + k) (c + 1) (c :: s)).1 + 1
          = (walkForward n f (c + 1) (c :: s)).1 + 1
      have hlt : (walkForward n f (c + 1) (c :: s)).1 + 1 < f + 1 := h
      rw [ih k (c + 1) (c :: s) (by omega)]
    · rw [walkForward_succ_neg n (f + k) c s hq, walkForward_succ_neg n f c s hq]

theorem walkForward_fuel_suff (n : List (Int × Int)) (hnd : (keysOf n).Nodup)
    (fuel : Nat) (c : Int) (s : List Int) (hf : posCount n < fuel) :
    (walkForward n fuel c s).1 = (walkForward n (posCount n + 1) c s).1 := by
  have h1 : (walkForward n (posCount n + 1) c s).1 < posCount n + 1 :=
    Nat.lt_succ_of_le (walkForward_le_posCount n hnd _ c s)
  have hsplit : fuel = (posCount n + 1) + (fuel - (posCount n + 1)) := by omega
  rw [hsplit, walkForward_stable n (posCount n + 1) _ c s h1]

theorem walkForward_seen (n : List (Int × Int)) :
    ∀ (fuel : Nat) (c : Int) (s : List Int) (x : Int),
      x ∈ (walkForward n fuel c s).2 ↔
        x ∈ s ∨ ∃ i : Nat, i < (walkForward n fuel c s).1 ∧ x = c + i := by
  intro fuel
  induction fuel with
  | zero =>
    intro c s x
    simp [walkForward]
  | succ f ih =>
    intro c s x
    by_cases hq : 0 < assocGet n c
    · rw [walkForward_succ_pos n f c s hq]
      show x ∈ (walkForward n f (c + 1) (c :: s)).2 ↔
        x ∈ s ∨ ∃ i : Nat, i < (walkForward n f (c + 1) (c :: s)).1 + 1 ∧ x = c + i
      rw [ih (c + 1) (c :: s) x]
      constructor
      · rintro (hx | ⟨i, hi, rfl⟩)
        · rcases List.mem_cons.1 hx with rfl | hx'
          · exact Or.inr ⟨0, by omega, by simp⟩
          · exact Or.inl hx'
        · refine Or.inr ⟨i + 1, by omega, ?_⟩
          push_cast
          ring
      · rintro (hx | ⟨i, hi, rfl⟩)
        · exact Or.inl (List.mem_cons_of_mem c hx)
        · cases i with
          | zero => exact Or.inl (by simp)
          | succ j =>
            refine Or.inr ⟨j, by omega, ?_⟩
            push_cast
            ring
    · rw [walkForward_succ_neg n f c s hq]
      show x ∈ s ↔ x ∈ s ∨ ∃ i : Nat, i < (0 : Nat) ∧ x = c + i
      simp

/-! ### Longest-streak loop lemmas -/

theorem longestLoop_cons_seen (n : List (Int × Int)) (d : Int) (rest seen : List Int)
    (long : Nat) (h1 : d ∈ seen) :
    longestLoop n (d :: rest) seen long = longestLoop n rest seen long := by
  simp only [longestLoop, if_pos h1]

theorem longestLoop_cons_nonpos (n : List (Int × Int)) (d : Int) (rest seen : List Int)
    (long : Nat) (h1 : d ∉ seen) (h2 : assocGet n d ≤ 0) :
    longestLoop n (d :: rest) seen long = longestLoop n rest seen long := by
  simp only [longestLoop, if_neg h1, if_pos h2]

theorem longestLoop_cons_prevqual (n : List (Int × Int)) (d : Int) (rest seen : List Int)
    (long : Nat) (h1 : d ∉ seen) (h2 : ¬ assocGet n d ≤ 0) (h3 : 0 < assocGet n (d - 1)) :
    longestLoop n (d :: rest) seen long = longestLoop n rest seen long := by
  simp only [longestLoop, if_neg h1, if_neg h2, if_pos h3]

theorem longestLoop_cons_start (n : List (Int × Int)) (d : Int) (rest seen : List Int)
    (long : Nat) (h1 : d ∉ seen) (h2 : ¬ assocGet n d ≤ 0) (h3 : ¬ 0 < assocGet n (d - 1)) :
    longestLoop n (d :: rest) seen long
      = longestLoop n rest (walkForward n (n.length + 1) d seen).2
          (max long (walkForward n (n.length + 1) d seen).1) := by
  simp only [longestLoop, if_neg h1, if_neg h2, if_neg h3]

theorem longestLoop_mono (n : List (Int × Int)) :
    ∀ (D seen : List Int) (long : Nat), long ≤ longestLoop n D seen long := by
  intro D
  induction D with
  | nil => intro seen long; exact le_refl _
  | cons d rest ih =>
    intro seen long
    by_cases h1 : d ∈ seen
    · rw [longestLoop_cons_seen n d rest seen long h1]
      exact ih seen long
    · by_cases h2 : assocGet n d ≤ 0
      · rw [longestLoop_cons_nonpos n d rest seen long h1 h2]
        exact ih seen long
      · by_cases h3 : 0 < assocGet n (d - 1)
        · rw [longestLoop_cons_prevqual n d rest seen long h1 h2 h3]
          exact ih seen long
        · rw [longestLoop_cons_start n d rest seen long h1 h2 h3]
          exact le_trans (le_max_left _ _) (ih _ _)

/-- Lower bound: once a run start `s` occurs in the remaining date list,
the loop's result dominates that run's forward-walk length.  `P` is the
already-processed prefix of the date list; the invariant states that
every member of `seen` qualifies and, if it is a run start, was already
processed. -/
theorem longestLoop_lb (n : List (Int × Int)) :
    ∀ (D P seen : List Int) (long : Nat),
      (P ++ D).Nodup →
      (∀ x, x ∈ seen → qualifies n x ∧ (isStart n x → x ∈ P)) →
      ∀ s, s ∈ D → isStart n s → wfLen n s ≤ longestLoop n D seen long := by
  intro D
  induction D with
  | nil => intro P seen long _ _ s hs; exact absurd hs (List.not_mem_nil s)
  | cons d rest ih =>
    intro P seen long hnd hinv s hs hstart
    have hnd' : (P ++ rest).Nodup :=
      List.Nodup.sublist ((List.sublist_cons_self d rest).append_left P) hnd
    by_cases h1 : d ∈ seen
    · rw [longestLoop_cons_seen n d rest seen long h1]
      rcases List.mem_cons.1 hs with rfl | hs'
      · exfalso
        have hdP : s ∈ P := (hinv s h1).2 hstart
        exact (List.disjoint_of_nodup_append hnd) hdP (List.mem_cons_self s rest)
      · exact ih P seen long hnd' hinv s hs' hstart
    · by_cases h2 : assocGet n d ≤ 0
      · rw [longestLoop_cons_nonpos n d rest seen long h1 h2]
        rcases List.mem_cons.1 hs with rfl | hs'
        · exact absurd hstart.1 (by omega)
        · exact ih P seen long hnd' hinv s hs' hstart
      · by_cases h3 : 0 < assocGet n (d - 1)
        · rw [longestLoop_cons_prevqual n d rest seen long h1 h2 h3]
          rcases List.mem_cons.1 hs with rfl | hs'
          · exact absurd h3 hstart.2
          · exact ih P seen long hnd' hinv s hs' hstart
        · rw [longestLoop_cons_start n d rest seen long h1 h2 h3]
          rcases List.mem_cons.1 hs with rfl | hs'
          · have hX : (walkForward n (n.length + 1) s seen).1 = wfLen n s :=
              walkForward_fst_indep n (n.length + 1) s seen []
            calc wfLen n s = (walkForward n (n.length + 1) s seen).1 := hX.symm
              _ ≤ max long (walkForward n (n.length + 1) s seen).1 := le_max_right _ _
              _ ≤ longestLoop n rest (walkForward n (n.length + 1) s seen).2
                    (max long (walkForward n (n.length + 1) s seen).1) :=
                  longestLoop_mono n rest _ _
          · refine ih (P ++ [d]) _ _ ?_ ?_ s hs' hstart
            · rw [List.append_assoc]
              exact hnd
            · intro x hx
              rcases (walkForward_seen n (n.length + 1) d seen x).1 hx with hxs | ⟨i, hi, rfl⟩
              · rcases hinv x hxs with ⟨hq, hf⟩
                exact ⟨hq, fun hst => List.mem_append_left [d] (hf hst)⟩
              · refine ⟨walkForward_qual n (n.length + 1) d seen i hi, ?_⟩
                intro hst
                cases i with
                | zero => simp
                | succ j =>
                  exfalso
                  have hqj := walkForward_qual n (n.length + 1) d seen j (by omega)
                  have heq : d + ((j + 1 : Nat) : Int) - 1 = d + (j : Int) := by
                    push_cast; ring
                  exact hst.2 (by rw [heq]; exact hqj)

/-- The loop's result is either its initial accumulator or the
forward-walk length of some run start among the remaining dates. -/
theorem longestLoop_achieved (n : List (Int × Int)) :
    ∀ (D seen : List Int) (long : Nat),
      longestLoop n D seen long = long ∨
        ∃ s, s ∈ D ∧ isStart n s ∧ longestLoop n D seen long = wfLen n s := by
  intro D
  induction D with
  | nil => intro seen long; exact Or.inl rfl
  | cons d rest ih =>
    intro seen long
    by_cases h1 : d ∈ seen
    · rw [longestLoop_cons_seen n d rest seen long h1]
      rcases ih seen long with h | ⟨s, hs, hst, h⟩
      · exact Or.inl h
      · exact Or.inr ⟨s, List.mem_cons_of_mem d hs, hst, h⟩
    · by_cases h2 : assocGet n d ≤ 0
      · rw [longestLoop_cons_nonpos n d rest seen long h1 h2]
        rcases ih seen long with h | ⟨s, hs, hst, h⟩
        · exact Or.inl h
        · exact Or.inr ⟨s, List.mem_cons_of_mem d hs, hst, h⟩
      · by_cases h3 : 0 < assocGet n (d - 1)
        · rw [longestLoop_cons_prevqual n d rest seen long h1 h2 h3]
          rcases ih seen long with h | ⟨s, hs, hst, h⟩
          · exact Or.inl h
          · exact Or.inr ⟨s, List.mem_cons_of_mem d hs, hst, h⟩
        · rw [longestLoop_cons_start n d rest seen long h1 h2 h3]
          have hX : (walkForward n (n.length + 1) d seen).1 = wfLen n d :=
            walkForward_fst_indep n (n.length + 1) d seen []
          rcases ih (walkForward n (n.length + 1) d seen).2
              (max long (walkForward n (n.length + 1) d seen).1) with h | ⟨s, hs, hst, h⟩
          · by_cases hml : (walkForward n (n.length + 1) d seen).1 ≤ long
            · refine Or.inl ?_
              rw [h, Nat.max_eq_left hml]
            · refine Or.inr ⟨d, List.mem_cons_self d rest, ⟨by omega, h3⟩, ?_⟩
              rw [h, Nat.max_eq_right (by omega), hX]
          · exact Or.inr ⟨s, List.mem_cons_of_mem d hs, hst, h⟩

theorem walkBack_pos (n : List (Int × Int)) (fuel : Nat) (d : Int)
    (hf : 0 < fuel) (hq : qualifies n d) : 0 < walkBack n fuel d := by
  cases fuel with
  | zero => omega
  | succ f =>
    simp only [walkBack, if_pos hq]
    omega

/-! ### `ComputeStreaks` characterizations -/

theorem ComputeStreaks_empty (today : Int) : ComputeStreaks today [] = (0, 0) := rfl

theorem ComputeStreaks_fst (today : Int) (c : ContribMap) (hc : ¬ c.length = 0) :
    (ComputeStreaks today c).1
      = walkBack (normalizeContribs c) ((normalizeContribs c).length + 1) today := by
  rw [ComputeStreaks, if_neg hc]

theorem ComputeStreaks_snd (today : Int) (c : ContribMap) (hc : ¬ c.length = 0) :
    (ComputeStreaks today c).2
      = longestLoop (normalizeContribs c)
          (sortAsc (keysOf (normalizeContribs c))) [] 0 := by
  rw [ComputeStreaks, if_neg hc]

/-- The current streak counts exactly the backward run of qualifying days
from `today`: every day it covers qualifies, and the day right past it
does not. -/
theorem ComputeStreaks_current_char (today : Int) (c : ContribMap) :
    (∀ i : Nat, i < (ComputeStreaks today c).1 →
        qualifies (normalizeContribs c) (today - i)) ∧
      ¬ qualifies (normalizeContribs c)
        (today - (((ComputeStreaks today c).1 : Nat) : Int)) := by
  by_cases hc : c.length = 0
  · have hcnil : c = [] := List.length_eq_zero.1 hc
    subst hcnil
    rw [ComputeStreaks_empty]
    constructor
    · intro i hi
      exact absurd hi (by simp)
    · simp [normalizeContribs, assocGet]
  · rw [ComputeStreaks_fst today c hc]
    refine ⟨walkBack_qual _ _ today, ?_⟩
    have hnd := keys_nodup_normalize c
    rcases walkBack_break (normalizeContribs c)
        ((normalizeContribs c).length + 1) today with h | h
    · exfalso
      have hle := walkBack_le_posCount (normalizeContribs c) hnd
        ((normalizeContribs c).length + 1) today
      have hpc := posCount_le_length (normalizeContribs c)
      omega
    · exact h

/-- Any run of `k` consecutive qualifying days bounds the longest streak
from below. -/
theorem ComputeStreaks_longest_ub (today : Int) (c : ContribMap) (d : Int) (k : Nat)
    (h : ∀ i : Nat, i < k → qualifies (normalizeContribs c) (d + i)) :
    k ≤ (ComputeStreaks today c).2 := by
  rcases Nat.eq_zero_or_pos k with rfl | hk
  · exact Nat.zero_le _
  · have hnd := keys_nodup_normalize c
    have hq0 : qualifies (normalizeContribs c) d := by simpa using h 0 hk
    have hc : ¬ c.length = 0 := by
      intro hc0
      have hcnil : c = [] := List.length_eq_zero.1 hc0
      rw [hcnil] at hq0
      simp [normalizeContribs, assocGet] at hq0
    rw [ComputeStreaks_snd today c hc]
    set n := normalizeContribs c with hn
    set r := walkBack n (n.length + 1) d with hr
    have hr1 : ∀ i : Nat, i < r → qualifies n (d - i) := walkBack_qual n (n.length + 1) d
    have hrpos : 0 < r := walkBack_pos n (n.length + 1) d (by omega) hq0
    have hr2 : ¬ qualifies n (d - (r : Int)) := by
      rcases walkBack_break n (n.length + 1) d with hb | hb
      · exfalso
        have hle := walkBack_le_posCount n hnd (n.length + 1) d
        have hpc := posCount_le_length n
        omega
      · exact hb
    set s := d - (r : Int) + 1 with hs
    have hstart : isStart n s := by
      constructor
      · have := hr1 (r - 1) (by omega)
        have heq : d - ((r - 1 : Nat) : Int) = s := by omega
        rwa [heq] at this
      · have heq : s - 1 = d - (r : Int) := by omega
        rw [heq]
        exact hr2
    have hrun : ∀ i : Nat, i < (r - 1) + k → qualifies n (s + i) := by
      intro i hi
      by_cases hcase : i < r - 1
      · have := hr1 (r - 1 - i) (by omega)
        have heq : d - ((r - 1 - i : Nat) : Int) = s + i := by omega
        rwa [heq] at this
      · have hj : i - (r - 1) < k := by omega
        have := h (i - (r - 1)) hj
        have heq : d + ((i - (r - 1) : Nat) : Int) = s + i := by omega
        rwa [heq] at this
    have hbound : (r - 1) + k ≤ posCount n := by
      refine qualrun_le_posCount n hnd (fun i => s + i) ((r - 1) + k) ?_ hrun
      intro i j _ _ hij
      have hij' : s + (i : Int) = s + (j : Int) := hij
      omega
    have hpc := posCount_le_length n
    have hwf : (r - 1) + k ≤ wfLen n s := by
      refine walkForward_ge n ((r - 1) + k) (n.length + 1) s [] (by omega) hrun
    have hmem : s ∈ sortAsc (keysOf n) := by
      rw [(sortAsc_perm (keysOf n)).mem_iff]
      exact mem_keys_of_get_ne_zero n s (by have := hstart.1; omega)
    have hDnd : (([] : List Int) ++ sortAsc (keysOf n)).Nodup := by
      rw [List.nil_append, (sortAsc_perm (keysOf n)).nodup_iff]
      exact hnd
    have hlb := longestLoop_lb n (sortAsc (keysOf n)) [] [] 0 hDnd
      (by intro x hx; exact absurd hx (List.not_mem_nil x)) s hmem hstart
    omega

/-- The longest streak, when positive, is realised by a maximal run: a
run start whose forward walk has exactly that length. -/
theorem ComputeStreaks_longest_achieved (today : Int) (c : ContribMap) :
    (ComputeStreaks today c).2 = 0 ∨
      ∃ d : Int, isStart (normalizeContribs c) d ∧
        (∀ i : Nat, i < (ComputeStreaks today c).2 →
            qualifies (normalizeContribs c) (d + i)) ∧
        ¬ qualifies (normalizeContribs c)
          (d + (((ComputeStreaks today c).2 : Nat) : Int)) := by
  by_cases hc : c.length = 0
  · refine Or.inl ?_
    have hcnil : c = [] := List.length_eq_zero.1 hc
    rw [hcnil, ComputeStreaks_empty]
  · set n := normalizeContribs c with hn
    have hnd := keys_nodup_normalize c
    have h2 := ComputeStreaks_snd today c hc
    rcases longestLoop_achieved n (sortAsc (keysOf n)) [] 0 with h | ⟨s, hs, hst, h⟩
    · refine Or.inl ?_
      rw [h2, h]
    · refine Or.inr ⟨s, hst, ?_, ?_⟩
      · intro i hi
        rw [h2, h] at hi
        exact walkForward_qual n (n.length + 1) s [] i hi
      · rw [h2, h]
        rcases walkForward_break n (n.length + 1) s [] with hb | hb
        · exfalso
          have hle := walkForward_le_posCount n hnd (n.length + 1) s []
          have hpc := posCount_le_length n
          rw [wfLen] at *
          omega
        · exact hb

/-! ### Language-map lemmas -/

theorem langSet_find_self (m : List LanguageStat) (v : LanguageStat) :
    langFind? (langSet m v) v.name = some v := by
  induction m with
  | nil => simp [langSet, langFind?]
  | cons hd tl ih =>
    by_cases h : hd.name = v.name
    · simp [langSet, h, langFind?]
    · simp [langSet, h, langFind?, ih]

theorem langSet_find_ne (m : List LanguageStat) (v : LanguageStat) (nm : String)
    (h : nm ≠ v.name) : langFind? (langSet m v) nm = langFind? m nm := by
  have hvn : v.name ≠ nm := Ne.symm h
  induction m with
  | nil => simp [langSet, langFind?, hvn]
  | cons hd tl ih =>
    by_cases hh : hd.name = v.name
    · have hhd : hd.name ≠ nm := by rw [hh]; exact hvn
      simp [langSet, hh, langFind?, hvn, hhd]
    · simp only [langSet, if_neg hh, langFind?]
      by_cases hd2 : hd.name = nm
      · simp [hd2]
      · simp [hd2, ih]

theorem mem_names_langSet (m : List LanguageStat) (v : LanguageStat) (nm : String)
    (h : nm ∈ (langSet m v).map LanguageStat.name) :
    nm ∈ m.map LanguageStat.name ∨ nm = v.name := by
  induction m with
  | nil =>
    rw [langSet, List.map_cons] at h
    simp at h
    exact Or.inr h
  | cons hd tl ih =>
    by_cases hh : hd.name = v.name
    · rw [langSet, if_pos hh, List.map_cons] at h
      rcases List.mem_cons.1 h with rfl | h'
      · exact Or.inr rfl
      · exact Or.inl (List.mem_cons_of_mem _ h')
    · rw [langSet, if_neg hh, List.map_cons] at h
      rcases List.mem_cons.1 h with rfl | h'
      · exact Or.inl (List.mem_cons_self _ _)
      · rcases ih h' with hm | hm
        · exact Or.inl (List.mem_cons_of_mem _ hm)
        · exact Or.inr hm

theorem langSet_names_nodup (m : List LanguageStat) (v : LanguageStat)
    (h : (m.map LanguageStat.name).Nodup) :
    ((langSet m v).map LanguageStat.name).Nodup := by
  induction m with
  | nil => simp [langSet]
  | cons hd tl ih =>
    rw [List.map_cons, List.nodup_cons] at h
    by_cases hh : hd.name = v.name
    · rw [langSet, if_pos hh, List.map_cons, List.nodup_cons]
      exact ⟨hh ▸ h.1, h.2⟩
    · rw [langSet, if_neg hh, List.map_cons, List.nodup_cons]
      refine ⟨fun hmem => ?_, ih h.2⟩
      rcases List.mem_map.1 hmem with ⟨x, hx, hxname⟩
      -- x ∈ langSet tl v: its name is either in tl's names or equals v.name
      have hnames : x.name ∈ (langSet tl v).map LanguageStat.name := List.mem_map_of_mem _ hx
      rcases mem_names_langSet tl v x.name hnames with hm | hm
      · exact h.1 (hxname ▸ hm)
      · exact hh (hxname ▸ hm)

/-- The entry written for `ls.Name` by one iteration of the `b` loop of
`mergeLanguageStats`, as a function of the existing entry. -/
def mergeEntryResult (ex : Option LanguageStat) (ls : LanguageStat) : LanguageStat :=
  match ex with
  | some existing =>
    { name := ls.name
      percentage := existing.percentage + ls.percentage
      color :=
        if (if existing.color = "" then ls.color else existing.color) = ""
        then fallbackColor
        else (if existing.color = "" then ls.color else existing.color) }
  | none =>
    { name := ls.name
      percentage := ls.percentage
      color := if ls.color = "" then fallbackColor else ls.color }

theorem mergeEntryResult_name (ex : Option LanguageStat) (ls : LanguageStat) :
    (mergeEntryResult ex ls).name = ls.name := by
  cases ex <;> rfl

theorem mergeLangEntry_eq (m : List LanguageStat) (ls : LanguageStat) :
    mergeLangEntry m ls = langSet m (mergeEntryResult (langFind? m ls.name) ls) := by
  cases h : langFind? m ls.name <;> simp [mergeLangEntry, mergeEntryResult, h]

theorem langFind?_eq_none_of_not_mem (m : List LanguageStat) (nm : String)
    (h : nm ∉ m.map LanguageStat.name) : langFind? m nm = none := by
  induction m with
  | nil => rfl
  | cons hd tl ih =>
    rw [List.map_cons, List.mem_cons] at h
    push_neg at h
    rw [langFind?, if_neg (fun hh => h.1 hh.symm)]
    exact ih h.2

theorem langFind?_eq_of_mem (m : List LanguageStat) (e : LanguageStat)
    (hmem : e ∈ m) (hnd : (m.map LanguageStat.name).Nodup) :
    langFind? m e.name = some e := by
  induction m with
  | nil => exact absurd hmem (List.not_mem_nil e)
  | cons hd tl ih =>
    rw [List.map_cons, List.nodup_cons] at hnd
    rcases List.mem_cons.1 hmem with rfl | hmem'
    · rw [langFind?, if_pos rfl]
    · have hne : hd.name ≠ e.name := by
        intro hh
        exact hnd.1 (hh ▸ List.mem_map_of_mem LanguageStat.name hmem')
      rw [langFind?, if_neg hne]
      exact ih hmem' hnd.2

theorem langFind?_build_notmem (a : List LanguageStat) :
    ∀ (m : List LanguageStat) (nm : String),
      a.find? (fun l => l.name = nm) = none →
      langFind? (a.foldl (fun m ls => langSet m ls) m) nm = langFind? m nm := by
  induction a with
  | nil => intro m nm _; rfl
  | cons x a' ih =>
    intro m nm hfind
    rw [List.find?_cons] at hfind
    by_cases hx : x.name = nm
    · simp [hx] at hfind
    · have hfind' : a'.find? (fun l => l.name = nm) = none := by
        simpa [hx] using hfind
      show langFind? (a'.foldl (fun m ls => langSet m ls) (langSet m x)) nm = langFind? m nm
      rw [ih (langSet m x) nm hfind']
      exact langSet_find_ne m x nm (fun hh => hx hh.symm)

/-- After the `a` loop, looking a name up in `m` finds the matching entry
of `a` (names in `a` are assumed distinct, as they are for a real
provider list). -/
theorem langFind?_build_mem (a : List LanguageStat) :
    ∀ (m : List LanguageStat) (nm : String) (ls : LanguageStat),
      (a.map LanguageStat.name).Nodup →
      a.find? (fun l => l.name = nm) = some ls →
      langFind? (a.foldl (fun m ls => langSet m ls) m) nm = some ls := by
  induction a with
  | nil => intro m nm ls _ hfind; simp at hfind
  | cons x a' ih =>
    intro m nm ls hnd hfind
    rw [List.map_cons, List.nodup_cons] at hnd
    by_cases hx : x.name = nm
    · have hls : ls = x := by
        rw [List.find?_cons_of_pos _ (by simpa using hx)] at hfind
        exact (Option.some_inj.1 hfind).symm
      subst hls
      have hnone : ∀ l ∈ a', l.name ≠ nm := by
        intro l hl hh
        exact hnd.1 (by rw [hx, ← hh]; exact List.mem_map_of_mem LanguageStat.name hl)
      show langFind? (a'.foldl (fun m ls => langSet m ls) (langSet m ls)) nm = some ls
      rw [langFind?_build_notmem a' (langSet m ls) nm
        (List.find?_eq_none.2 (by intro l hl; simpa using hnone l hl))]
      rw [← hx]
      exact langSet_find_self m ls
    · rw [List.find?_cons_of_neg _ (by simpa using hx)] at hfind
      exact ih (langSet m x) nm ls hnd.2 hfind

theorem langFind?_mergeLoop_notmem (b : List LanguageStat) :
    ∀ (m : List LanguageStat) (nm : String),
      b.find? (fun l => l.name = nm) = none →
      langFind? (b.foldl mergeLangEntry m) nm = langFind? m nm := by
  induction b with
  | nil => intro m nm _; rfl
  | cons x b' ih =>
    intro m nm hfind
    rw [List.find?_cons] at hfind
    by_cases hx : x.name = nm
    · simp [hx] at hfind
    · have hfind' : b'.find? (fun l => l.name = nm) = none := by
        simpa [hx] using hfind
      show langFind? (b'.foldl mergeLangEntry (mergeLangEntry m x)) nm = langFind? m nm
      rw [ih (mergeLangEntry m x) nm hfind', mergeLangEntry_eq]
      refine langSet_find_ne m _ nm ?_
      rw [mergeEntryResult_name]
      exact fun hh => hx hh.symm

theorem langFind?_mergeLoop_mem (b : List LanguageStat) :
    ∀ (m : List LanguageStat) (nm : String) (ls : LanguageStat),
      (b.map LanguageStat.name).Nodup →
      b.find? (fun l => l.name = nm) = some ls →
      langFind? (b.foldl mergeLangEntry m) nm
        = some (mergeEntryResult (langFind? m nm) ls) := by
  induction b with
  | nil => intro m nm ls _ hfind; simp at hfind
  | cons x b' ih =>
    intro m nm ls hnd hfind
    rw [List.map_cons, List.nodup_cons] at hnd
    by_cases hx : x.name = nm
    · have hls : ls = x := by
        rw [List.find?_cons_of_pos _ (by simpa using hx)] at hfind
        exact (Option.some_inj.1 hfind).symm
      subst hls
      have hnone : b'.find? (fun l => l.name = nm) = none := by
        refine List.find?_eq_none.2 ?_
        intro l hl
        simp only [decide_eq_true_eq]
        intro hh
        exact hnd.1 (by rw [hx, ← hh]; exact List.mem_map_of_mem LanguageStat.name hl)
      show langFind? (b'.foldl mergeLangEntry (mergeLangEntry m ls)) nm = _
      rw [langFind?_mergeLoop_notmem b' (mergeLangEntry m ls) nm hnone, mergeLangEntry_eq]
      rw [← hx]
      have hself := langSet_find_self m (mergeEntryResult (langFind? m ls.name) ls)
      rw [mergeEntryResult_name] at hself
      exact hself
    · rw [List.find?_cons_of_neg _ (by simpa using hx)] at hfind
      show langFind? (b'.foldl mergeLangEntry (mergeLangEntry m x)) nm = _
      rw [ih (mergeLangEntry m x) nm ls hnd.2 hfind]
      have : langFind? (mergeLangEntry m x) nm = langFind? m nm := by
        rw [mergeLangEntry_eq]
        refine langSet_find_ne m _ nm ?_
        rw [mergeEntryResult_name]
        exact fun hh => hx hh.symm
      rw [this]

theorem foldl_langSet_names_nodup (a : List LanguageStat) :
    ∀ (m : List LanguageStat), (m.map LanguageStat.name).Nodup →
      ((a.foldl (fun m ls => langSet m ls) m).map LanguageStat.name).Nodup := by
  induction a with
  | nil => intro m h; exact h
  | cons x a' ih =>
    intro m h
    exact ih (langSet m x) (langSet_names_nodup m x h)

theorem langMap_names_nodup (a b : List LanguageStat) :
    ((langMap a b).map LanguageStat.name).Nodup := by
  have base := foldl_langSet_names_nodup a [] (by simp)
  have gen : ∀ (bb : List LanguageStat) (m : List LanguageStat),
      (m.map LanguageStat.name).Nodup →
      ((bb.foldl mergeLangEntry m).map LanguageStat.name).Nodup := by
    intro bb
    induction bb with
    | nil => intro m h; exact h
    | cons x b' ih =>
      intro m h
      refine ih (mergeLangEntry m x) ?_
      rw [mergeLangEntry_eq]
      exact langSet_names_nodup m _ h
  exact gen b _ base

/-! ### `mergeLanguageStats` and `MergeStats` evaluation lemmas -/

theorem mergeLanguageStats_nil (a b : List LanguageStat)
    (hab : a.length = 0 ∧ b.length = 0) : mergeLanguageStats a b = ([], 0) := by
  simp only [mergeLanguageStats, if_pos hab]

theorem mergeLanguageStats_eq (a b : List LanguageStat)
    (hab : ¬ (a.length = 0 ∧ b.length = 0)) :
    mergeLanguageStats a b
      = (sortPctDesc (if 0 < sumPct (langMap a b)
            then (langMap a b).map
              (fun ls => { ls with percentage := ls.percentage / sumPct (langMap a b) * 100 })
            else langMap a b),
         ((sortPctDesc (if 0 < sumPct (langMap a b)
            then (langMap a b).map
              (fun ls => { ls with percentage := ls.percentage / sumPct (langMap a b) * 100 })
            else langMap a b)).length : Int)) := by
  simp only [mergeLanguageStats, if_neg hab]

theorem mergeLanguageStats_count (a b : List LanguageStat) :
    (mergeLanguageStats a b).2 = ((mergeLanguageStats a b).1.length : Int) := by
  by_cases hab : a.length = 0 ∧ b.length = 0
  · rw [mergeLanguageStats_nil a b hab]
    rfl
  · rw [mergeLanguageStats_eq a b hab]

theorem mem_mergeLanguageStats (a b : List LanguageStat) (e : LanguageStat)
    (he : e ∈ (mergeLanguageStats a b).1) :
    ∃ e0, e0 ∈ langMap a b ∧ e.name = e0.name ∧ e.color = e0.color := by
  by_cases hab : a.length = 0 ∧ b.length = 0
  · rw [mergeLanguageStats_nil a b hab] at he
    exact absurd he (List.not_mem_nil e)
  · rw [mergeLanguageStats_eq a b hab] at he
    have he2 := (sortPctDesc_perm _).mem_iff.1 he
    by_cases ht : 0 < sumPct (langMap a b)
    · rw [if_pos ht] at he2
      rcases List.mem_map.1 he2 with ⟨e0, he0, rfl⟩
      exact ⟨e0, he0, rfl, rfl⟩
    · rw [if_neg ht] at he2
      exact ⟨e, he2, rfl, rfl⟩

theorem mergeLanguageStats_sum (a b : List LanguageStat)
    (ht : 0 < sumPct (langMap a b)) : sumPct (mergeLanguageStats a b).1 = 100 := by
  have hab : ¬ (a.length = 0 ∧ b.length = 0) := by
    rintro ⟨ha, hb⟩
    rw [List.length_eq_zero.1 ha, List.length_eq_zero.1 hb] at ht
    simp [langMap, sumPct] at ht
  rw [mergeLanguageStats_eq a b hab]
  show sumPct (sortPctDesc _) = 100
  rw [sumPct_perm (sortPctDesc_perm _), if_pos ht, sumPct_scale]
  rw [div_self (ne_of_gt ht), one_mul]

theorem MergeStats_identity (today : Int) (h : Heap) (A B : DevStats) :
    (MergeStats today h A B).2.identity
      = { name := A.identity.name, username := A.identity.username,
          avatar := A.identity.avatar,
          handles := A.identity.handles ++ B.identity.handles } := rfl

theorem MergeStats_joinedAgo (today : Int) (h : Heap) (A B : DevStats) :
    (MergeStats today h A B).2.totals.joinedAgo = A.totals.joinedAgo := rfl

theorem MergeStats_topLanguages (today : Int) (h : Heap) (A B : DevStats) :
    (MergeStats today h A B).2.activity.topLanguages
      = (mergeLanguageStats A.activity.topLanguages B.activity.topLanguages).1 := rfl

theorem MergeStats_totalLanguages (today : Int) (h : Heap) (A B : DevStats) :
    (MergeStats today h A B).2.totals.totalLanguages
      = (mergeLanguageStats A.activity.topLanguages B.activity.topLanguages).2 := rfl

theorem MergeStats_contrib_secnone (today : Int) (h : Heap) (A B : DevStats)
    (hB : B.activity.contributionsPerDay = none) :
    (MergeStats today h A B).1 = h ∧
      (MergeStats today h A B).2.activity.contributionsPerDay
        = A.activity.contributionsPerDay := by
  constructor <;> simp [MergeStats, hB]

theorem MergeStats_contrib_both (today : Int) (h : Heap) (A B : DevStats) (pr sr : Nat)
    (hA : A.activity.contributionsPerDay = some pr)
    (hB : B.activity.contributionsPerDay = some sr) :
    (MergeStats today h A B).1
        = Heap.set h pr (assocAddAll (Heap.get h pr) (Heap.get h sr)) ∧
      (MergeStats today h A B).2.activity.contributionsPerDay = some pr := by
  constructor <;> simp [MergeStats, hA, hB]

theorem MergeStats_contrib_prinone (today : Int) (h : Heap) (A B : DevStats) (sr : Nat)
    (hA : A.activity.contributionsPerDay = none)
    (hB : B.activity.contributionsPerDay = some sr) :
    (MergeStats today h A B).1
        = Heap.set (h.alloc).1 (h.alloc).2
            (assocAddAll (Heap.get (h.alloc).1 (h.alloc).2) (Heap.get h sr)) ∧
      (MergeStats today h A B).2.activity.contributionsPerDay = some (h.alloc).2 := by
  constructor <;> simp [MergeStats, hA, hB]

/-! ### Concrete records used as test inputs -/

def statsZeroA : DevStats :=
  { baseStats with activity :=
    { baseStats.activity with topLanguages := [{ name := "Go", percentage := 0, color := "" }] } }

def statsZeroB : DevStats :=
  { baseStats with activity :=
    { baseStats.activity with topLanguages := [{ name := "Rust", percentage := 0, color := "" }] } }

def statsLangA : DevStats :=
  { baseStats with activity :=
    { baseStats.activity with topLanguages := [{ name := "Go", percentage := 100, color := "" }] } }

def statsLangB : DevStats :=
  { baseStats with activity :=
    { baseStats.activity with topLanguages :=
      [{ name := "Go", percentage := 50, color := "" },
       { name := "Rust", percentage := 50, color := "" }] } }

/-- A record whose contribution map lives in heap cell 0. -/
def statsPrimary : DevStats :=
  { baseStats with activity :=
    { baseStats.activity with contributionsPerDay := some 0 } }

/-- A record whose contribution map lives in heap cell 1. -/
def statsSecondary : DevStats :=
  { baseStats with activity :=
    { baseStats.activity with contributionsPerDay := some 1 } }

def heapTwo : Heap := ⟨[[(⟨0, 0⟩, 1)], [(⟨0, 0⟩, 2)]]⟩

def heapOneEmpty : Heap := ⟨[[]]⟩

def heapUnion : Heap := ⟨[[(⟨5, 0⟩, 1), (⟨6, 0⟩, 2)], [(⟨5, 0⟩, 7)]]⟩

/-! ### Claims -/

/-- C1, counterexample to the claim as stated: both inputs have non-empty
`TopLanguages`, but every percentage is 0, so `mergeLanguageStats` skips
renormalization (`total > 0` fails) and the merged percentages sum to 0,
far outside 100 ± 1e-9. -/
theorem C1_counterexample :
    statsZeroA.activity.topLanguages ≠ [] ∧
    statsZeroB.activity.topLanguages ≠ [] ∧
    ¬ (|sumPct (MergeStats 0 ⟨[]⟩ statsZeroA statsZeroB).2.activity.topLanguages - 100|
        ≤ 1 / 1000000000) := by
  refine ⟨by simp [statsZeroA, baseStats], by simp [statsZeroB, baseStats], ?_⟩
  have hsum : sumPct (MergeStats 0 ⟨[]⟩ statsZeroA statsZeroB).2.activity.topLanguages = 0 := by
    rw [MergeStats_topLanguages]
    norm_num +decide [statsZeroA, statsZeroB, baseStats, mergeLanguageStats, langMap,
      mergeLangEntry, langFind?, langSet, sumPct, sortPctDesc, insertPctDesc, fallbackColor]
  rw [hsum, zero_sub, abs_neg, abs_of_nonneg (by norm_num : (0 : ℚ) ≤ 100)]
  norm_num

/-- C1 (amended): whenever the percentages accumulated in the merged
language map have strictly positive total — which holds for all inputs
obeying the data-model invariant that a non-empty list sums to 100 —
the percentages of `MergeStats(A,B).Activity.TopLanguages` sum to 100
within 1e-9 (in the rational model: exactly 100); and when both inputs'
lists are empty the merged list is empty. -/
theorem C1_theorem (today : Int) (h : Heap) (A B : DevStats) :
    (0 < sumPct (langMap A.activity.topLanguages B.activity.topLanguages) →
      |sumPct (MergeStats today h A B).2.activity.topLanguages - 100| ≤ 1 / 1000000000) ∧
    (A.activity.topLanguages = [] → B.activity.topLanguages = [] →
      (MergeStats today h A B).2.activity.topLanguages = []) := by
  constructor
  · intro ht
    rw [MergeStats_topLanguages, mergeLanguageStats_sum _ _ ht]
    norm_num
  · intro hA hB
    rw [MergeStats_topLanguages,
      mergeLanguageStats_nil _ _ ⟨by rw [hA]; rfl, by rw [hB]; rfl⟩]

/-- Witness for C1 on the spec's own scenario
(A = [Go 100], B = [Go 50, Rust 50] → Go 75, Rust 25). -/
theorem C1_witness :
    |sumPct (MergeStats 0 ⟨[]⟩ statsLangA statsLangB).2.activity.topLanguages - 100|
      ≤ 1 / 1000000000 :=
  (C1_theorem 0 ⟨[]⟩ statsLangA statsLangB).1 (by
    norm_num +decide [statsLangA, statsLangB, baseStats, langMap, mergeLangEntry,
      langFind?, langSet, sumPct, fallbackColor])

/-- C2, counterexample to the claim as stated: after the merge the
primary record's contribution map (heap cell 0) holds the merged
entries, not the entries it held before the call — `MergeStats` mutates
its primary input's map in place. -/
theorem C2_counterexample :
    Heap.get heapTwo 0 = [(⟨0, 0⟩, 1)] ∧
    Heap.get (MergeStats 0 heapTwo statsPrimary statsSecondary).1 0 = [(⟨0, 0⟩, 3)] := by
  decide

/-- C2 (amended): `MergeStats` is total and only ever writes the heap
cell its result references — every other cell is unchanged, and a nil
secondary map leaves the heap entirely unchanged.  It is, however, not
effect-free on the primary: when both inputs hold maps, the result
aliases the primary's cell, which is overwritten in place with the
additive union of the two maps, so the primary's `ContributionsPerDay`
does not keep its original entries. -/
theorem C2_theorem (today : Int) (h : Heap) (A B : DevStats) :
    (∀ q : Nat, (MergeStats today h A B).2.activity.contributionsPerDay ≠ some q →
        Heap.get (MergeStats today h A B).1 q = Heap.get h q) ∧
    (B.activity.contributionsPerDay = none → (MergeStats today h A B).1 = h) ∧
    (∀ pr sr : Nat, A.activity.contributionsPerDay = some pr →
        B.activity.contributionsPerDay = some sr → pr < h.maps.length →
        (MergeStats today h A B).2.activity.contributionsPerDay = some pr ∧
        Heap.get (MergeStats today h A B).1 pr
          = assocAddAll (Heap.get h pr) (Heap.get h sr)) := by
  refine ⟨?_, ?_, ?_⟩
  · intro q hq
    cases hBc : B.activity.contributionsPerDay with
    | none => rw [(MergeStats_contrib_secnone today h A B hBc).1]
    | some sr =>
      cases hAc : A.activity.contributionsPerDay with
      | none =>
        have hset := (MergeStats_contrib_prinone today h A B sr hAc hBc).1
        have href := (MergeStats_contrib_prinone today h A B sr hAc hBc).2
        have hqne : q ≠ (h.alloc).2 := fun hh => hq (by rw [href, hh])
        rw [hset, Heap.get_set_ne _ _ _ _ hqne, Heap.get_alloc_old h q hqne]
      | some pr =>
        have hset := (MergeStats_contrib_both today h A B pr sr hAc hBc).1
        have href := (MergeStats_contrib_both today h A B pr sr hAc hBc).2
        have hqne : q ≠ pr := fun hh => hq (by rw [href, hh])
        rw [hset, Heap.get_set_ne _ _ _ _ hqne]
  · intro hB
    exact (MergeStats_contrib_secnone today h A B hB).1
  · intro pr sr hA hB hvalid
    refine ⟨(MergeStats_contrib_both today h A B pr sr hA hB).2, ?_⟩
    rw [(MergeStats_contrib_both today h A B pr sr hA hB).1]
    exact Heap.get_set_self h pr _ hvalid

/-- Witness for C2 at a concrete two-cell heap. -/
theorem C2_witness :
    (MergeStats 0 heapTwo statsPrimary statsSecondary).2.activity.contributionsPerDay
        = some 0 ∧
    Heap.get (MergeStats 0 heapTwo statsPrimary statsSecondary).1 0
      = assocAddAll (Heap.get heapTwo 0) (Heap.get heapTwo 1) :=
  (C2_theorem 0 heapTwo statsPrimary statsSecondary).2.2 0 1 rfl rfl (by decide)

/-- C3, counterexample to the claim as stated: primary's map absent,
secondary's present but empty — both inputs are "empty or absent" — yet
the merged record carries a freshly allocated present-but-empty map
(reference `some 1`), not an absent one. -/
theorem C3_counterexample :
    baseStats.activity.contributionsPerDay = none ∧
    Heap.get heapOneEmpty 0 = [] ∧
    (MergeStats 0 heapOneEmpty baseStats statsPrimary).2.activity.contributionsPerDay
        = some 1 ∧
    Heap.get (MergeStats 0 heapOneEmpty baseStats statsPrimary).1 1 = [] := by
  decide

/-- C3 (amended): the merged mapping is the additive union of the two
input mappings — each day's merged count is the sum of its input counts
and a day is present in the merged mapping iff it is present in at least
one input.  The merged reference is nil exactly when both input
references are nil; when the secondary's map is present-but-empty and
the primary's is nil, the merged map is present-but-empty (allocated),
contrary to the claim's parenthetical. -/
theorem C3_theorem (today : Int) (h : Heap) (A B : DevStats) :
    ((MergeStats today h A B).2.activity.contributionsPerDay = none ↔
      A.activity.contributionsPerDay = none ∧ B.activity.contributionsPerDay = none) ∧
    (refValid h A → (keysOf (contribEntries h B)).Nodup →
      (∀ k : GoTime,
        assocGet (contribEntries (MergeStats today h A B).1 (MergeStats today h A B).2) k
          = assocGet (contribEntries h A) k + assocGet (contribEntries h B) k) ∧
      (∀ k : GoTime,
        k ∈ keysOf (contribEntries (MergeStats today h A B).1 (MergeStats today h A B).2) ↔
          k ∈ keysOf (contribEntries h A) ∨ k ∈ keysOf (contribEntries h B))) := by
  constructor
  · cases hBc : B.activity.contributionsPerDay with
    | none =>
      rw [(MergeStats_contrib_secnone today h A B hBc).2]
      simp
    | some sr =>
      cases hAc : A.activity.contributionsPerDay with
      | none =>
        rw [(MergeStats_contrib_prinone today h A B sr hAc hBc).2]
        simp
      | some pr =>
        rw [(MergeStats_contrib_both today h A B pr sr hAc hBc).2]
        simp
  · intro hval hnd
    cases hBc : B.activity.contributionsPerDay with
    | none =>
      have h1 := (MergeStats_contrib_secnone today h A B hBc).1
      have h2 := (MergeStats_contrib_secnone today h A B hBc).2
      have hBempty : contribEntries h B = [] := by simp only [contribEntries, hBc]
      have hmerged : contribEntries (MergeStats today h A B).1 (MergeStats today h A B).2
          = contribEntries h A := by
        simp only [contribEntries, h1, h2]
      rw [hmerged, hBempty]
      constructor
      · intro k
        simp [assocGet]
      · intro k
        simp [keysOf]
    | some sr =>
      have hsrc : contribEntries h B = Heap.get h sr := by simp only [contribEntries, hBc]
      rw [hsrc] at hnd
      cases hAc : A.activity.contributionsPerDay with
      | none =>
        have h1 := (MergeStats_contrib_prinone today h A B sr hAc hBc).1
        have h2 := (MergeStats_contrib_prinone today h A B sr hAc hBc).2
        have hAempty : contribEntries h A = [] := by simp only [contribEntries, hAc]
        have hmerged : contribEntries (MergeStats today h A B).1 (MergeStats today h A B).2
            = assocAddAll [] (Heap.get h sr) := by
          simp only [contribEntries, h1, h2]
          rw [Heap.get_set_self _ _ _ (Heap.alloc_fresh_lt h), Heap.get_alloc_fresh]
        rw [hmerged, hAempty, hsrc]
        constructor
        · intro k
          rw [assocGet_addAll _ hnd _ k]
        · intro k
          exact mem_keys_addAll _ _ k
      | some pr =>
        have h1 := (MergeStats_contrib_both today h A B pr sr hAc hBc).1
        have h2 := (MergeStats_contrib_both today h A B pr sr hAc hBc).2
        have hdst : contribEntries h A = Heap.get h pr := by simp only [contribEntries, hAc]
        have hprlt : pr < h.maps.length := hval pr hAc
        have hmerged : contribEntries (MergeStats today h A B).1 (MergeStats today h A B).2
            = assocAddAll (Heap.get h pr) (Heap.get h sr) := by
          simp only [contribEntries, h1, h2]
          rw [Heap.get_set_self h pr _ hprlt]
        rw [hmerged, hdst, hsrc]
        constructor
        · intro k
          exact assocGet_addAll _ hnd _ k
        · intro k
          exact mem_keys_addAll _ _ k

/-- Witness for C3: additive union at an overlapping day on a concrete
two-cell heap (1 + 7 = 8 on day 5). -/
theorem C3_witness :
    assocGet (contribEntries (MergeStats 0 heapUnion statsPrimary statsSecondary).1
        (MergeStats 0 heapUnion statsPrimary statsSecondary).2) ⟨5, 0⟩
      = assocGet (contribEntries heapUnion statsPrimary) ⟨5, 0⟩
        + assocGet (contribEntries heapUnion statsSecondary) ⟨5, 0⟩ := by
  refine ((C3_theorem 0 heapUnion statsPrimary statsSecondary).2 ?_ (by decide)).1 ⟨5, 0⟩
  intro r hr
  injection hr with hh
  subst hh
  decide

/-- C4: the current streak is exactly the count of consecutive
qualifying days (normalized count > 0) walking backward from today:
every counted day qualifies, the first day past the count does not, and
today failing to qualify forces a current streak of 0. -/
theorem C4_theorem (today : Int) (c : ContribMap) :
    (∀ i : Nat, i < (ComputeStreaks today c).1 →
        0 < assocGet (normalizeContribs c) (today - i)) ∧
    ¬ (0 < assocGet (normalizeContribs c)
        (today - (((ComputeStreaks today c).1 : Nat) : Int))) ∧
    (¬ (0 < assocGet (normalizeContribs c) today) → (ComputeStreaks today c).1 = 0) := by
  obtain ⟨h1, h2⟩ := ComputeStreaks_current_char today c
  refine ⟨h1, h2, ?_⟩
  intro htoday
  by_contra hne
  have hq := h1 0 (by omega)
  simp at hq
  exact htoday hq

/-- Witness for C4 on the spec's gap example `{today-5: 1, today-3: 1}`
with `today = 0`: today does not qualify, so the current streak is 0. -/
theorem C4_witness :
    (ComputeStreaks 0 [((⟨-5, 0⟩ : GoTime), 1), (⟨-3, 0⟩, 1)]).1 = 0 :=
  (C4_theorem 0 [((⟨-5, 0⟩ : GoTime), 1), (⟨-3, 0⟩, 1)]).2.2 (by decide)

/-- C5: the longest streak is the length of the longest maximal run of
consecutive qualifying days over the normalized map: the empty map gives
(0, 0); if no day qualifies it is 0; every run of `k` consecutive
qualifying days bounds it from below; and when positive it is realised
by a maximal run whose start qualifies while its predecessor does not. -/
theorem C5_theorem (today : Int) (c : ContribMap) :
    ComputeStreaks today [] = (0, 0) ∧
    ((∀ d : Int, ¬ 0 < assocGet (normalizeContribs c) d) →
        (ComputeStreaks today c).2 = 0) ∧
    (∀ (d : Int) (k : Nat),
        (∀ i : Nat, i < k → 0 < assocGet (normalizeContribs c) (d + i)) →
        k ≤ (ComputeStreaks today c).2) ∧
    ((ComputeStreaks today c).2 = 0 ∨
      ∃ d : Int,
        (0 < assocGet (normalizeContribs c) d ∧
          ¬ 0 < assocGet (normalizeContribs c) (d - 1)) ∧
        (∀ i : Nat, i < (ComputeStreaks today c).2 →
            0 < assocGet (normalizeContribs c) (d + i)) ∧
        ¬ 0 < assocGet (normalizeContribs c)
          (d + (((ComputeStreaks today c).2 : Nat) : Int))) := by
  refine ⟨rfl, ?_, ?_, ?_⟩
  · intro hnone
    rcases ComputeStreaks_longest_achieved today c with h | ⟨d, hst, _, _⟩
    · exact h
    · exact absurd hst.1 (hnone d)
  · intro d k hk
    exact ComputeStreaks_longest_ub today c d k hk
  · exact ComputeStreaks_longest_achieved today c

/-- Witness for C5 on the gap example: the isolated qualifying days give
a longest streak of at least 1 (realised at day −3). -/
theorem C5_witness :
    1 ≤ (ComputeStreaks 0 [((⟨-5, 0⟩ : GoTime), 1), (⟨-3, 0⟩, 1)]).2 :=
  (C5_theorem 0 [((⟨-5, 0⟩ : GoTime), 1), (⟨-3, 0⟩, 1)]).2.2.1 (-3) 1 (by decide)

/-- C6, counterexample to the claim as stated: "Go" appears only in the
primary list and carries no color in either input, yet the merged entry
keeps the empty color — the fallback constant is not assigned on this
path. -/
theorem C6_counterexample :
    (mergeLanguageStats [{ name := "Go", percentage := 50, color := "" }] []).1
      = [{ name := "Go", percentage := 100, color := "" }] ∧
    ("" : String) ≠ fallbackColor := by
  constructor
  · norm_num +decide [mergeLanguageStats, langMap, mergeLangEntry, langFind?, langSet,
      sumPct, sortPctDesc, insertPctDesc, fallbackColor]
  · decide

/-- C6 (amended): for a merged entry `e` (input lists carrying distinct
names, as provider lists do): a language found only in the primary list
keeps that list's color unchanged — even when it is empty, in which case
no fallback is assigned; a language found only in the secondary list
gets its color, or the fallback constant when that color is empty; a
language found in both gets the primary's color when set, otherwise the
secondary's, otherwise the fallback constant. -/
theorem C6_theorem (a b : List LanguageStat)
    (ha : (a.map LanguageStat.name).Nodup) (hb : (b.map LanguageStat.name).Nodup)
    (e : LanguageStat) (he : e ∈ (mergeLanguageStats a b).1) :
    (∀ la, a.find? (fun l => l.name = e.name) = some la →
        b.find? (fun l => l.name = e.name) = none → e.color = la.color) ∧
    (∀ lb, a.find? (fun l => l.name = e.name) = none →
        b.find? (fun l => l.name = e.name) = some lb →
        e.color = (if lb.color = "" then fallbackColor else lb.color)) ∧
    (∀ la lb, a.find? (fun l => l.name = e.name) = some la →
        b.find? (fun l => l.name = e.name) = some lb →
        e.color = (if la.color = ""
                   then (if lb.color = "" then fallbackColor else lb.color)
                   else la.color)) := by
  obtain ⟨e0, he0, hname, hcolor⟩ := mem_mergeLanguageStats a b e he
  have hfind : langFind? (langMap a b) e0.name = some e0 :=
    langFind?_eq_of_mem _ e0 he0 (langMap_names_nodup a b)
  refine ⟨?_, ?_, ?_⟩
  · intro la hfa hfb
    have hthis : langFind? (langMap a b) e.name = some la := by
      simp only [langMap]
      rw [langFind?_mergeLoop_notmem b _ e.name hfb]
      exact langFind?_build_mem a [] e.name la ha hfa
    rw [hname] at hthis
    have heq : e0 = la := Option.some_inj.1 (hfind.symm.trans hthis)
    rw [hcolor, heq]
  · intro lb hfa hfb
    have hbuildnone : langFind? (a.foldl (fun m ls => langSet m ls) []) e.name = none := by
      rw [langFind?_build_notmem a [] e.name hfa]
      rfl
    have hfm : langFind? (langMap a b) e.name = some (mergeEntryResult none lb) := by
      simp only [langMap]
      rw [langFind?_mergeLoop_mem b _ e.name lb hb hfb, hbuildnone]
    rw [hname] at hfm
    have heq : e0 = mergeEntryResult none lb := Option.some_inj.1 (hfind.symm.trans hfm)
    rw [hcolor, heq]
    rfl
  · intro la lb hfa hfb
    have hbuildla : langFind? (a.foldl (fun m ls => langSet m ls) []) e.name = some la :=
      langFind?_build_mem a [] e.name la ha hfa
    have hfm : langFind? (langMap a b) e.name = some (mergeEntryResult (some la) lb) := by
      simp only [langMap]
      rw [langFind?_mergeLoop_mem b _ e.name lb hb hfb, hbuildla]
    rw [hname] at hfm
    have heq : e0 = mergeEntryResult (some la) lb := Option.some_inj.1 (hfind.symm.trans hfm)
    rw [hcolor, heq]
    by_cases hla : la.color = "" <;> simp [mergeEntryResult, hla]

/-- Witness for C6: "Rust" appears only in the secondary list with no
color and the merged entry receives the fallback constant. -/
theorem C6_witness :
    ({ name := "Rust", percentage := 100, color := "#586069" } : LanguageStat).color
      = (if ("" : String) = "" then fallbackColor else ("" : String)) := by
  have hres : (mergeLanguageStats [] [{ name := "Rust", percentage := 50, color := "" }]).1
      = [{ name := "Rust", percentage := 100, color := "#586069" }] := by
    norm_num +decide [mergeLanguageStats, langMap, mergeLangEntry, langFind?, langSet,
      sumPct, sortPctDesc, insertPctDesc, fallbackColor]
  have hmem : ({ name := "Rust", percentage := 100, color := "#586069" } : LanguageStat)
      ∈ (mergeLanguageStats [] [{ name := "Rust", percentage := 50, color := "" }]).1 := by
    rw [hres]
    exact List.mem_singleton.2 rfl
  exact (C6_theorem [] [{ name := "Rust", percentage := 50, color := "" }]
      (by simp) (by simp)
      { name := "Rust", percentage := 100, color := "#586069" } hmem).2.1
    { name := "Rust", percentage := 50, color := "" } (by decide) (by decide)

/-- C7: the merged identity name, username and avatar and the
`JoinedAgo` total come from the primary record only, and the merged
handle list is the primary's handles followed by the secondary's, with
no deduplication. -/
theorem C7_theorem (today : Int) (h : Heap) (A B : DevStats) :
    (MergeStats today h A B).2.identity.name = A.identity.name ∧
    (MergeStats today h A B).2.identity.username = A.identity.username ∧
    (MergeStats today h A B).2.identity.avatar = A.identity.avatar ∧
    (MergeStats today h A B).2.totals.joinedAgo = A.totals.joinedAgo ∧
    (MergeStats today h A B).2.identity.handles
      = A.identity.handles ++ B.identity.handles :=
  ⟨rfl, rfl, rfl, rfl, rfl⟩

/-- C8: the merged `TotalLanguages` total equals the number of entries
of the merged `TopLanguages` list (not the sum of the inputs' counts). -/
theorem C8_theorem (today : Int) (h : Heap) (A B : DevStats) :
    (MergeStats today h A B).2.totals.totalLanguages
      = (((MergeStats today h A B).2.activity.topLanguages.length : Nat) : Int) := by
  rw [MergeStats_totalLanguages, MergeStats_topLanguages]
  exact mergeLanguageStats_count _ _

/-- C9: the current streak never exceeds the longest streak — the
backward run from today, when non-empty, is itself a run of consecutive
qualifying days, so the longest-streak lower bound applies to it. -/
theorem C9_theorem (today : Int) (c : ContribMap) :
    (ComputeStreaks today c).1 ≤ (ComputeStreaks today c).2 := by
  obtain ⟨h1, _⟩ := ComputeStreaks_current_char today c
  rcases Nat.eq_zero_or_pos (ComputeStreaks today c).1 with h0 | hpos
  · omega
  · refine ComputeStreaks_longest_ub today c
      (today - ((ComputeStreaks today c).1 : Int) + 1) (ComputeStreaks today c).1 ?_
    intro i hi
    have hq := h1 ((ComputeStreaks today c).1 - 1 - i) (by omega)
    have heq : today - (((ComputeStreaks today c).1 - 1 - i : Nat) : Int)
        = today - ((ComputeStreaks today c).1 : Int) + 1 + i := by omega
    rwa [heq] at hq

/-- C10: termination of both day-by-day loops of `ComputeStreaks`.  Each
continuing iteration consumes a distinct positive-count normalized key,
so with fuel `posCount n + 1` the loops exit through their break
condition; any extra fuel — in particular the program's `n.length + 1` —
gives the same result. -/
theorem C10_theorem (c : ContribMap) (d : Int) (extra : Nat) :
    walkBack (normalizeContribs c) (posCount (normalizeContribs c) + 1 + extra) d
        = walkBack (normalizeContribs c) (posCount (normalizeContribs c) + 1) d ∧
    walkBack (normalizeContribs c) ((normalizeContribs c).length + 1) d
        = walkBack (normalizeContribs c) (posCount (normalizeContribs c) + 1) d ∧
    (walkForward (normalizeContribs c)
        (posCount (normalizeContribs c) + 1 + extra) d []).1
        = (walkForward (normalizeContribs c)
            (posCount (normalizeContribs c) + 1) d []).1 ∧
    (walkForward (normalizeContribs c) ((normalizeContribs c).length + 1) d []).1
        = (walkForward (normalizeContribs c)
            (posCount (normalizeContribs c) + 1) d []).1 := by
  have hnd := keys_nodup_normalize c
  have hpc := posCount_le_length (normalizeContribs c)
  refine ⟨?_, ?_, ?_, ?_⟩
  · exact walkBack_fuel_suff _ hnd _ d (by omega)
  · exact walkBack_fuel_suff _ hnd _ d (by omega)
  · exact walkForward_fuel_suff _ hnd _ d [] (by omega)
  · exact walkForward_fuel_suff _ hnd _ d [] (by omega)

end DevMetrics
